import Mathlib

/-!
Shallow embedding of the simple-crdts repository (three state-based CRDT
primitives written in JavaScript): the TextRGA sequence CRDT, the PNCounter,
and the LWW register.  JavaScript plain objects used as string-keyed maps are
embedded as association lists `List (String × β)` with unique keys (a JS
object cannot hold the same key twice); property read `obj[k]` becomes
`getVal`, property write `obj[k] = v` becomes `setKey` (overwrite in place,
append when the key is new, matching JS property-insertion order).  JS
`Array.prototype.sort()` on id strings is embedded as `sortIds`, an insertion
sort by lexicographic comparison of the character sequences of the strings.
JS numbers only ever hold integers here, so they are embedded as `Int`.
-/

/-- Read of a string-keyed JS object property: first (only) binding wins. -/
def getVal {β : Type} : List (String × β) → String → Option β
  | [], _ => none
  | p :: rest, k => if p.1 = k then some p.2 else getVal rest k

/-- Write of a string-keyed JS object property: overwrite the existing
binding in place, append a new binding at the end otherwise. -/
def setKey {β : Type} : List (String × β) → String → β → List (String × β)
  | [], k, v => [(k, v)]
  | p :: rest, k, v => if p.1 = k then (k, v) :: rest else p :: setKey rest k v

/-- Keys of a JS object, in property order (the JS `Object.keys`). -/
def keysOf {β : Type} (m : List (String × β)) : List String :=
  m.map Prod.fst

/-- A JS object never holds two bindings for the same key. -/
def keysNodup {β : Type} (m : List (String × β)) : Prop :=
  (keysOf m).Nodup

instance {β : Type} (m : List (String × β)) : Decidable (keysNodup m) := by
  unfold keysNodup
  infer_instance

/-- Lexicographic comparison of character lists (the order underlying the JS
default string sort). -/
def charsLe : List Char → List Char → Bool
  | [], _ => true
  | _ :: _, [] => false
  | a :: as, b :: bs => if a < b then true else if b < a then false else charsLe as bs

/-- Lexicographic comparison of id strings. -/
def strLe (a b : String) : Bool :=
  charsLe a.data b.data

/-- The lexicographic order on id strings as a relation. -/
def strOrd (a b : String) : Prop :=
  strLe a b = true

instance : DecidableRel strOrd := fun a b => by
  unfold strOrd
  infer_instance

/-- The JS `Array.from(set).sort()` over id strings: sorting by the
lexicographic string order. -/
def sortIds (l : List String) : List String :=
  l.insertionSort strOrd

/-- One stored character of the sequence CRDT: payload plus tombstone flag. -/
structure TextRGAEntry where
  char : String
  deleted : Bool
deriving DecidableEq, Repr

/-- Payload of the sequence onInsert callback. -/
structure TextRGAInsertInfo where
  index : Nat
  id : String
  char : String
deriving DecidableEq, Repr

/-- Payload of the sequence onDelete callback. -/
structure TextRGADeleteInfo where
  index : Nat
  id : String
deriving DecidableEq, Repr

/-- State of the TextRGA sequence CRDT (callbacks are modelled by the events
the operations return, not as state). -/
structure TextRGA where
  localNodeId : String
  localCounter : Int
  entries : List (String × TextRGAEntry)
  order : List String
deriving DecidableEq, Repr

/-- The filter the source applies to `order` before positional operations:
an id is kept unless its entry exists and is tombstoned (an id with no entry
is kept, mirroring the JS optional-chaining read). -/
def keep (es : List (String × TextRGAEntry)) (id : String) : Bool :=
  match getVal es id with
  | some e => !e.deleted
  | none => true

/-- The visible id sequence the source computes in insertAt and deleteAt. -/
def TextRGA.visibleIds (x : TextRGA) : List String :=
  x.order.filter (keep x.entries)

/-- The id the next local insertion allocates. -/
def TextRGA.freshId (x : TextRGA) : String :=
  x.localNodeId ++ ":" ++ toString (x.localCounter + 1)

/-- The clamping insertAt applies: Math.max(0, Math.min(index, visible
length)), where the visible length counts the order ids the source's filter
keeps. -/
def TextRGA.clampedIndex (x : TextRGA) (index : Int) : Nat :=
  (max 0 (min index ((x.order.filter (keep x.entries)).length : Int))).toNat

/-- The insertAt loop over the existing order: push the new id right before
the visible id whose visible position equals the clamped index, keep
everything else as it was. -/
def insertLoop (es : List (String × TextRGAEntry)) (newId : String) (k : Nat) :
    List String → Nat → List String
  | [], _ => []
  | id :: rest, pos =>
    if keep es id then
      (if pos = k then [newId] else []) ++ id :: insertLoop es newId k rest (pos + 1)
    else
      id :: insertLoop es newId k rest pos

/-- TextRGA.insertAt: single-character check, id allocation, clamping of the
index over visible characters, splice into the full order, entry creation.
The JS method throws before any mutation when the check fails; here the
unchanged state is returned next to the error.  The callback payload is
returned inside the success value. -/
def TextRGA.insertAt (x : TextRGA) (index : Int) (char : String) :
    TextRGA × Except String (String × TextRGAInsertInfo) :=
  if char.length ≠ 1 then
    (x, Except.error "TextRGA.insertAt expects a single character string.")
  else
    let counter := x.localCounter + 1
    let id := x.localNodeId ++ ":" ++ toString counter
    let vis := x.order.filter (keep x.entries)
    let clamped : Nat := x.clampedIndex index
    let looped := insertLoop x.entries id clamped x.order 0
    let newOrder := if clamped = vis.length ∧ id ∉ looped then looped ++ [id] else looped
    ({ localNodeId := x.localNodeId
       localCounter := counter
       entries := setKey x.entries id ⟨char, false⟩
       order := newOrder },
     Except.ok (id, ⟨clamped, id, char⟩))

/-- Convenience: the state insertAt leaves behind (the JS object after the
call, whether or not it threw). -/
def TextRGA.insertAtState (x : TextRGA) (index : Int) (char : String) : TextRGA :=
  (x.insertAt index char).1

/-- TextRGA.deleteAt: silent no-op outside the range of the filtered visible
ids, tombstoning of the addressed entry otherwise.  The callback payload is
returned next to the state. -/
def TextRGA.deleteAt (x : TextRGA) (index : Int) :
    TextRGA × Option TextRGADeleteInfo :=
  let vis := x.order.filter (keep x.entries)
  if index < 0 ∨ (vis.length : Int) ≤ index then
    (x, none)
  else
    match vis.get? index.toNat with
    | none => (x, none)
    | some id =>
      match getVal x.entries id with
      | none => (x, none)
      | some e =>
        ({ x with entries := setKey x.entries id ⟨e.char, true⟩ },
         some ⟨index.toNat, id⟩)

/-- One step of the merge entry loop: copy a new remote character verbatim,
or OR the tombstone flags of a shared character (local char kept). -/
def mergeEntriesStep (es : List (String × TextRGAEntry)) (p : String × TextRGAEntry) :
    List (String × TextRGAEntry) :=
  match getVal es p.1 with
  | none => es ++ [(p.1, ⟨p.2.char, p.2.deleted⟩)]
  | some l => setKey es p.1 ⟨l.char, l.deleted || p.2.deleted⟩

/-- The entries map after TextRGA.merge. -/
def TextRGA.mergedEntries (x y : TextRGA) : List (String × TextRGAEntry) :=
  y.entries.foldl mergeEntriesStep x.entries

/-- TextRGA.merge: entry union with sticky tombstones, then order rebuilt as
the deduplicated union of both orders and the merged entry keys, sorted by
the id string; localCounter raised to the maximum of the two. -/
def TextRGA.merge (x y : TextRGA) : TextRGA :=
  let es := x.mergedEntries y
  { localNodeId := x.localNodeId
    localCounter := max x.localCounter y.localCounter
    entries := es
    order := sortIds ((x.order ++ y.order ++ keysOf es).dedup) }

/-- TextRGA.getText: concatenate the chars of the non-tombstoned ids of
`order` that have an entry, in order. -/
def TextRGA.getText (x : TextRGA) : String :=
  x.order.foldl
    (fun result id =>
      match getVal x.entries id with
      | some e => if !e.deleted then result ++ e.char else result
      | none => result)
    ""

/-- Concatenation of a list of strings. -/
def concatAll : List String → String
  | [] => ""
  | s :: rest => s ++ concatAll rest

/-- The char contributed by one id of `order` to the visible text, following
the words of the specification of getText: ids with no entry contribute
nothing, tombstoned ids contribute nothing. -/
def specVisibleChar (es : List (String × TextRGAEntry)) (id : String) : Option String :=
  match getVal es id with
  | some e => if e.deleted then none else some e.char
  | none => none

/-- The visible text as the specification describes it. -/
def TextRGA.specVisibleString (x : TextRGA) : String :=
  concatAll (x.order.filterMap (specVisibleChar x.entries))

/-- The visible ids as the specification glossary describes them: ids whose
entry exists and is not tombstoned (the materialized, user-facing content). -/
def TextRGA.specVisibleIds (x : TextRGA) : List String :=
  x.order.filter (fun id => (specVisibleChar x.entries id).isSome)

/-- Well-formedness invariant of a sequence state: every id of `order` has an
entry in `entries`. -/
def TextRGA.wellFormed (x : TextRGA) : Prop :=
  ∀ id ∈ x.order, (getVal x.entries id).isSome

instance (x : TextRGA) : Decidable x.wellFormed := by
  unfold TextRGA.wellFormed
  infer_instance

/-- The ascending lexicographic sort of the ids occurring in a state (order
ids together with entry keys). -/
def TextRGA.idSortOf (x : TextRGA) : List String :=
  sortIds ((x.order ++ keysOf x.entries).dedup)

/-- Two sequence states agree on the payload of every shared id (true of any
two replicas that allocate under distinct node ids, since an id determines
the character it was allocated for). -/
def charCompatible (x y : TextRGA) : Prop :=
  ∀ p ∈ x.entries, ∀ q ∈ y.entries, p.1 = q.1 → p.2.char = q.2.char

instance (x y : TextRGA) : Decidable (charCompatible x y) := by
  unfold charCompatible
  infer_instance

/-- Entries maps of two states are extensionally equal. -/
def entriesEqv (x y : TextRGA) : Prop :=
  ∀ k, getVal x.entries k = getVal y.entries k

/-- State of the PN-Counter. -/
structure PNCounter where
  localNodeId : String
  increments : List (String × Int)
  decrements : List (String × Int)
deriving DecidableEq, Repr

/-- PNCounter.increment: add one to the local node's increment register. -/
def PNCounter.increment (c : PNCounter) : PNCounter :=
  let value := (getVal c.increments c.localNodeId).getD 0
  { c with increments := setKey c.increments c.localNodeId (value + 1) }

/-- PNCounter.decrement: add one to the local node's decrement register. -/
def PNCounter.decrement (c : PNCounter) : PNCounter :=
  let value := (getVal c.decrements c.localNodeId).getD 0
  { c with decrements := setKey c.decrements c.localNodeId (value + 1) }

/-- One step of the PNCounter merge loop over the other side's map: raise the
local register for that key to the element-wise maximum (absent local key
read as 0). -/
def maxStep (acc : List (String × Int)) (p : String × Int) : List (String × Int) :=
  setKey acc p.1 (max ((getVal acc p.1).getD 0) p.2)

/-- PNCounter.merge: element-wise max of both maps, iterating over the keys
of the other side's maps. -/
def PNCounter.merge (x y : PNCounter) : PNCounter :=
  { x with
    increments := y.increments.foldl maxStep x.increments
    decrements := y.decrements.foldl maxStep x.decrements }

/-- Sum of the values of a string-keyed JS object. -/
def sumVals (m : List (String × Int)) : Int :=
  m.foldl (fun a p => a + p.2) 0

/-- PNCounter.getCount: sum of increments minus sum of decrements. -/
def PNCounter.getCount (c : PNCounter) : Int :=
  sumVals c.increments - sumVals c.decrements

/-- A local mutation of the PN-Counter. -/
inductive CounterOp where
  | inc
  | dec
deriving DecidableEq, Repr

/-- Apply one local mutation. -/
def applyCounterOp (c : PNCounter) : CounterOp → PNCounter
  | CounterOp.inc => c.increment
  | CounterOp.dec => c.decrement

/-- The counter a replica holds after a history of local mutations starting
from a fresh counter. -/
def runOps (n : String) (ops : List CounterOp) : PNCounter :=
  ops.foldl applyCounterOp ⟨n, [], []⟩

/-- Either map of a counter produced by a local history: empty, or a single
positive register under the local node id. -/
def goodMap (n : String) (m : List (String × Int)) : Prop :=
  m = [] ∨ ∃ v : Int, 0 < v ∧ m = [(n, v)]

/-- State of the LWW register. -/
structure LWW (T : Type) where
  value : T
  timestamp : Int
  counter : Int
  nodeId : String
deriving DecidableEq, Repr

/-- Staleness threshold of the register (30 minutes in milliseconds). -/
def staleThresholdMs : Int := 30 * 60 * 1000

/-- Counter-coalescing window of the register (30 seconds in milliseconds). -/
def counterWindowMs : Int := 30 * 1000

/-- Modelled from the spec: the repository ships only the type declaration of
the LWW register (src/src/index.d.ts); the body of LWW.competition is not
under src/.  Following spec section 4.1: when the two timestamps differ by
more than the staleness threshold the later timestamp wins outright; when
they are within the counter-coalescing window of each other the higher
counter wins, and on equal counters the lexicographically greater nodeId
wins; for the gap between the two thresholds (left open by spec section 9)
the later timestamp is taken to win, the resolution the spec itself
suggests.  The winner's fields replace self's; otherwise self is kept. -/
def LWW.competition {T : Type} (self other : LWW T) : LWW T :=
  let diff := self.timestamp - other.timestamp
  if diff < -staleThresholdMs ∨ staleThresholdMs < diff then
    if self.timestamp < other.timestamp then other else self
  else if -counterWindowMs ≤ diff ∧ diff ≤ counterWindowMs then
    if self.counter < other.counter then other
    else if other.counter < self.counter then self
    else if strOrd other.nodeId self.nodeId then self else other
  else
    if self.timestamp < other.timestamp then other else self

/-- Pointwise description of the merge of two optional entries: a character
present on one side only is copied, a shared character keeps the local char
and ORs the tombstone flags. -/
def combineE : Option TextRGAEntry → Option TextRGAEntry → Option TextRGAEntry
  | l, none => l
  | none, some r => some ⟨r.char, r.deleted⟩
  | some l, some r => some ⟨l.char, l.deleted || r.deleted⟩

/-- A replica state built by two local insertions at index 0 on a fresh
replica: order ends up [A:2, A:1], text "ba". -/
def twoInserts : TextRGA :=
  TextRGA.insertAtState (TextRGA.insertAtState ⟨"A", 0, [], []⟩ 0 "a") 0 "b"

theorem keysOf_nil {β : Type} : keysOf ([] : List (String × β)) = [] := rfl

theorem keysOf_cons {β : Type} (p : String × β) (m : List (String × β)) :
    keysOf (p :: m) = p.1 :: keysOf m := rfl

theorem keysOf_append {β : Type} (m m2 : List (String × β)) :
    keysOf (m ++ m2) = keysOf m ++ keysOf m2 := by
  simp [keysOf]

theorem getVal_setKey_self {β : Type} (m : List (String × β)) (k : String) (v : β) :
    getVal (setKey m k v) k = some v := by
  induction m with
  | nil => simp [setKey, getVal]
  | cons p rest ih =>
    by_cases h : p.1 = k
    · simp [setKey, h, getVal]
    · simp [setKey, h, getVal, ih]

theorem getVal_setKey_ne {β : Type} (m : List (String × β)) (k k' : String) (v : β)
    (h : k' ≠ k) : getVal (setKey m k v) k' = getVal m k' := by
  induction m with
  | nil => simp [setKey, getVal, Ne.symm h]
  | cons p rest ih =>
    by_cases hp : p.1 = k
    · subst hp
      simp [setKey, getVal, Ne.symm h]
    · simp [setKey, hp, getVal, ih]

theorem setKey_self {β : Type} (m : List (String × β)) (k : String) (v : β)
    (h : getVal m k = some v) : setKey m k v = m := by
  induction m with
  | nil => simp [getVal] at h
  | cons p rest ih =>
    by_cases hp : p.1 = k
    · have h2 : p.2 = v := by simpa [getVal, hp] using h
      have hkv : p = (k, v) := by rw [← hp, ← h2]
      simp [setKey, hp, ← hkv]
    · have h' : getVal rest k = some v := by simpa [getVal, hp] using h
      simp [setKey, hp, ih h']

theorem getVal_eq_none_iff {β : Type} (m : List (String × β)) (k : String) :
    getVal m k = none ↔ k ∉ keysOf m := by
  induction m with
  | nil => simp [getVal, keysOf]
  | cons p rest ih =>
    rw [keysOf_cons]
    by_cases hp : p.1 = k
    · simp [getVal, hp]
    · have hne : k ≠ p.1 := fun hh => hp hh.symm
      simp [getVal, hp, hne, ih]

theorem getVal_isSome_iff {β : Type} (m : List (String × β)) (k : String) :
    (getVal m k).isSome ↔ k ∈ keysOf m := by
  rcases hv : getVal m k with _ | v
  · have := (getVal_eq_none_iff m k).1 hv
    simp [this]
  · have hmem : k ∈ keysOf m := by
      by_contra hk
      rw [(getVal_eq_none_iff m k).2 hk] at hv
      cases hv
    simp [hmem]

theorem keysOf_setKey_mem {β : Type} (m : List (String × β)) (k : String) (v : β)
    (h : k ∈ keysOf m) : keysOf (setKey m k v) = keysOf m := by
  induction m with
  | nil => simp [keysOf] at h
  | cons p rest ih =>
    by_cases hp : p.1 = k
    · simp [setKey, hp, keysOf_cons]
    · have hr : k ∈ keysOf rest := by
        rw [keysOf_cons] at h
        rcases List.mem_cons.mp h with h1 | h1
        · exact absurd h1.symm hp
        · exact h1
      simp [setKey, hp, keysOf_cons, ih hr]

theorem keysOf_setKey_absent {β : Type} (m : List (String × β)) (k : String) (v : β)
    (h : k ∉ keysOf m) : keysOf (setKey m k v) = keysOf m ++ [k] := by
  induction m with
  | nil => simp [setKey, keysOf]
  | cons p rest ih =>
    rw [keysOf_cons] at h
    have hp : p.1 ≠ k := fun hh => h (by rw [hh]; exact List.mem_cons_self k _)
    have hr : k ∉ keysOf rest := fun hh => h (List.mem_cons_of_mem _ hh)
    simp [setKey, hp, keysOf_cons, ih hr]

theorem getVal_append_none {β : Type} (m m2 : List (String × β)) (k : String)
    (h : getVal m k = none) : getVal (m ++ m2) k = getVal m2 k := by
  induction m with
  | nil => simp
  | cons p rest ih =>
    by_cases hp : p.1 = k
    · simp [getVal, hp] at h
    · rw [List.cons_append]
      simp only [getVal, if_neg hp] at h ⊢
      exact ih h

theorem getVal_append_some {β : Type} (m m2 : List (String × β)) (k : String) (v : β)
    (h : getVal m k = some v) : getVal (m ++ m2) k = some v := by
  induction m with
  | nil => simp [getVal] at h
  | cons p rest ih =>
    by_cases hp : p.1 = k
    · simp only [getVal, if_pos hp] at h
      simp only [List.cons_append, getVal, if_pos hp]
      exact h
    · simp only [getVal, if_neg hp] at h
      simp only [List.cons_append, getVal, if_neg hp]
      exact ih h

theorem mem_of_getVal {β : Type} (m : List (String × β)) (k : String) (v : β)
    (h : getVal m k = some v) : (k, v) ∈ m := by
  induction m with
  | nil => simp [getVal] at h
  | cons p rest ih =>
    by_cases hp : p.1 = k
    · have h2 : p.2 = v := by simpa [getVal, hp] using h
      have hkv : p = (k, v) := by rw [← hp, ← h2]
      rw [← hkv]
      exact List.mem_cons_self p rest
    · have h' : getVal rest k = some v := by simpa [getVal, hp] using h
      exact List.mem_cons_of_mem p (ih h')

theorem keysNodup_cons {β : Type} (p : String × β) (m : List (String × β))
    (hn : keysNodup (p :: m)) : keysNodup m ∧ p.1 ∉ keysOf m := by
  rw [keysNodup, keysOf_cons] at hn
  exact ⟨(List.nodup_cons.mp hn).2, (List.nodup_cons.mp hn).1⟩

theorem getVal_of_mem_nodup {β : Type} (m : List (String × β)) (k : String) (v : β)
    (hn : keysNodup m) (h : (k, v) ∈ m) : getVal m k = some v := by
  induction m with
  | nil => simp at h
  | cons p rest ih =>
    rcases List.mem_cons.mp h with h1 | h1
    · have hp1 : p.1 = k := by rw [← h1]
      have hp2 : p.2 = v := by rw [← h1]
      simp [getVal, hp1, hp2]
    · have hkmem : k ∈ keysOf rest := by
        have := List.mem_map_of_mem Prod.fst h1
        simpa [keysOf] using this
      have hp : p.1 ≠ k := fun hh => (keysNodup_cons p rest hn).2 (hh ▸ hkmem)
      simpa [getVal, hp] using ih (keysNodup_cons p rest hn).1 h1
theorem charsLe_total (a : List Char) : ∀ b, charsLe a b = true ∨ charsLe b a = true := by
  induction a with
  | nil => intro b; left; rfl
  | cons x as ih =>
    intro b
    cases b with
    | nil => right; rfl
    | cons y bs =>
      rcases lt_trichotomy x y with h | h | h
      · left
        simp [charsLe, h]
      · subst h
        have := ih bs
        simpa [charsLe, lt_irrefl] using this
      · right
        simp [charsLe, h]

theorem charsLe_trans (a : List Char) :
    ∀ b c, charsLe a b = true → charsLe b c = true → charsLe a c = true := by
  induction a with
  | nil => intro b c _ _; rfl
  | cons x as ih =>
    intro b c hab hbc
    cases b with
    | nil => simp [charsLe] at hab
    | cons y bs =>
      cases c with
      | nil => simp [charsLe] at hbc
      | cons z cs =>
        rcases lt_trichotomy x y with hxy | hxy | hxy
        · rcases lt_trichotomy y z with hyz | hyz | hyz
          · simp [charsLe, lt_trans hxy hyz]
          · subst hyz
            simp [charsLe, hxy]
          · simp [charsLe, hyz, lt_asymm hyz] at hbc
        · subst hxy
          rcases lt_trichotomy x z with hyz | hyz | hyz
          · simp [charsLe, hyz]
          · subst hyz
            simp [charsLe, lt_irrefl] at hab hbc ⊢
            exact ih bs cs hab hbc
          · simp [charsLe, hyz, lt_asymm hyz] at hbc
        · simp [charsLe, hxy, lt_asymm hxy] at hab

theorem charsLe_antisymm (a : List Char) :
    ∀ b, charsLe a b = true → charsLe b a = true → a = b := by
  induction a with
  | nil =>
    intro b _ hba
    cases b with
    | nil => rfl
    | cons y bs => simp [charsLe] at hba
  | cons x as ih =>
    intro b hab hba
    cases b with
    | nil => simp [charsLe] at hab
    | cons y bs =>
      rcases lt_trichotomy x y with h | h | h
      · simp [charsLe, h, lt_asymm h] at hba
      · subst h
        simp [charsLe, lt_irrefl] at hab hba
        rw [ih bs hab hba]
      · simp [charsLe, h, lt_asymm h] at hab

theorem string_data_ext (a b : String) (h : a.data = b.data) : a = b := by
  cases a
  cases b
  cases h
  rfl

instance : IsTotal String strOrd :=
  ⟨fun a b => charsLe_total a.data b.data⟩

instance : IsTrans String strOrd :=
  ⟨fun a b c hab hbc => charsLe_trans a.data b.data c.data hab hbc⟩

instance : IsAntisymm String strOrd :=
  ⟨fun a b hab hba => string_data_ext a b (charsLe_antisymm a.data b.data hab hba)⟩

theorem sortIds_sorted (l : List String) : List.Sorted strOrd (sortIds l) :=
  List.sorted_insertionSort strOrd l

theorem sortIds_perm (l : List String) : (sortIds l).Perm l :=
  List.perm_insertionSort strOrd l

theorem sortIds_congr (l1 l2 : List String) (h : l1.Perm l2) : sortIds l1 = sortIds l2 :=
  List.eq_of_perm_of_sorted
    ((sortIds_perm l1).trans (h.trans (sortIds_perm l2).symm))
    (sortIds_sorted l1) (sortIds_sorted l2)

theorem sortIds_congr_of_mem (l1 l2 : List String) (h1 : l1.Nodup) (h2 : l2.Nodup)
    (h : ∀ a, a ∈ l1 ↔ a ∈ l2) : sortIds l1 = sortIds l2 :=
  sortIds_congr l1 l2 ((List.perm_ext_iff_of_nodup h1 h2).mpr h)

theorem sortIds_nodup (l : List String) (h : l.Nodup) : (sortIds l).Nodup :=
  ((sortIds_perm l).nodup_iff).mpr h

theorem sortIds_mem (l : List String) (a : String) : a ∈ sortIds l ↔ a ∈ l :=
  (sortIds_perm l).mem_iff
theorem combineE_none_right (a : Option TextRGAEntry) : combineE a none = a := by
  cases a <;> rfl

theorem getVal_mergeEntriesStep_self (es : List (String × TextRGAEntry))
    (p : String × TextRGAEntry) :
    getVal (mergeEntriesStep es p) p.1 = combineE (getVal es p.1) (some p.2) := by
  rcases h : getVal es p.1 with _ | l
  · simp only [mergeEntriesStep, h, combineE]
    exact getVal_append_none es _ p.1 h |>.trans (by simp [getVal])
  · simp only [mergeEntriesStep, h, combineE]
    exact getVal_setKey_self es p.1 _

theorem getVal_mergeEntriesStep_ne (es : List (String × TextRGAEntry))
    (p : String × TextRGAEntry) (k : String) (hk : k ≠ p.1) :
    getVal (mergeEntriesStep es p) k = getVal es k := by
  have hpk : ¬ p.1 = k := fun hh => hk hh.symm
  rcases h : getVal es p.1 with _ | l
  · simp only [mergeEntriesStep, h]
    rcases h2 : getVal es k with _ | v
    · rw [getVal_append_none es _ k h2]
      simp [getVal, hpk, h2]
    · exact getVal_append_some es _ k v h2
  · simp only [mergeEntriesStep, h]
    exact getVal_setKey_ne es p.1 k _ hk

theorem getVal_foldl_mergeEntriesStep (ys : List (String × TextRGAEntry)) :
    ∀ (xs : List (String × TextRGAEntry)) (k : String), keysNodup ys →
      getVal (ys.foldl mergeEntriesStep xs) k = combineE (getVal xs k) (getVal ys k) := by
  induction ys with
  | nil =>
    intro xs k _
    rw [List.foldl_nil]
    have : getVal ([] : List (String × TextRGAEntry)) k = none := rfl
    rw [this, combineE_none_right]
  | cons p rest ih =>
    intro xs k hn
    have hrest := (keysNodup_cons p rest hn).1
    have hout := (keysNodup_cons p rest hn).2
    rw [List.foldl_cons, ih (mergeEntriesStep xs p) k hrest]
    by_cases hk : k = p.1
    · have hnone : getVal rest k = none := by
        rw [hk]
        exact (getVal_eq_none_iff rest p.1).2 hout
      rw [hnone, combineE_none_right, hk, getVal_mergeEntriesStep_self xs p]
      simp [getVal]
    · have hpk : ¬ p.1 = k := fun hh => hk hh.symm
      rw [getVal_mergeEntriesStep_ne xs p k hk]
      simp [getVal, hpk]

theorem keysNodup_mergeEntriesStep (es : List (String × TextRGAEntry))
    (p : String × TextRGAEntry) (hn : keysNodup es) :
    keysNodup (mergeEntriesStep es p) := by
  rcases h : getVal es p.1 with _ | l
  · have hout : p.1 ∉ keysOf es := (getVal_eq_none_iff es p.1).1 h
    rw [keysNodup, mergeEntriesStep, h, keysOf_append]
    have hsing : keysOf [(p.1, (⟨p.2.char, p.2.deleted⟩ : TextRGAEntry))] = [p.1] := rfl
    rw [hsing, List.nodup_append]
    refine ⟨hn, List.nodup_singleton p.1, ?_⟩
    intro a ha hb
    rw [List.mem_singleton] at hb
    exact hout (hb ▸ ha)
  · have hmem : p.1 ∈ keysOf es := by
      have hs : (getVal es p.1).isSome := by rw [h]; rfl
      exact (getVal_isSome_iff es p.1).1 hs
    rw [keysNodup, mergeEntriesStep, h, keysOf_setKey_mem es p.1 _ hmem]
    exact hn

theorem keysNodup_foldl_mergeEntriesStep (ys : List (String × TextRGAEntry)) :
    ∀ xs, keysNodup xs → keysNodup (ys.foldl mergeEntriesStep xs) := by
  induction ys with
  | nil => intro xs hn; exact hn
  | cons p rest ih =>
    intro xs hn
    rw [List.foldl_cons]
    exact ih _ (keysNodup_mergeEntriesStep xs p hn)

theorem mem_keysOf_foldl_mergeEntriesStep (ys : List (String × TextRGAEntry))
    (xs : List (String × TextRGAEntry)) (k : String) (hn : keysNodup ys) :
    k ∈ keysOf (ys.foldl mergeEntriesStep xs) ↔ k ∈ keysOf xs ∨ k ∈ keysOf ys := by
  rw [← getVal_isSome_iff, ← getVal_isSome_iff, ← getVal_isSome_iff,
    getVal_foldl_mergeEntriesStep ys xs k hn]
  rcases getVal xs k with _ | v <;> rcases getVal ys k with _ | w <;> simp [combineE]

theorem foldl_mergeEntriesStep_id (ys : List (String × TextRGAEntry)) :
    ∀ xs, (∀ p ∈ ys, getVal xs p.1 = some p.2) → ys.foldl mergeEntriesStep xs = xs := by
  induction ys with
  | nil => intro xs _; rfl
  | cons p rest ih =>
    intro xs h
    have hp := h p (List.mem_cons_self p rest)
    have hstep : mergeEntriesStep xs p = xs := by
      simp only [mergeEntriesStep, hp, Bool.or_self]
      exact setKey_self xs p.1 p.2 hp
    rw [List.foldl_cons, hstep]
    exact ih xs (fun q hq => h q (List.mem_cons_of_mem p hq))
theorem string_append_empty (s : String) : s ++ "" = s := by
  apply string_data_ext
  cases s with
  | mk d => show d ++ [] = d; exact List.append_nil d

theorem string_append_assoc (a b c : String) : (a ++ b) ++ c = a ++ (b ++ c) := by
  apply string_data_ext
  cases a with
  | mk da =>
    cases b with
    | mk db =>
      cases c with
      | mk dc => show (da ++ db) ++ dc = da ++ (db ++ dc); exact List.append_assoc da db dc

theorem getText_foldl_general (es : List (String × TextRGAEntry)) (l : List String) :
    ∀ acc : String,
      l.foldl
        (fun result id =>
          match getVal es id with
          | some e => if !e.deleted then result ++ e.char else result
          | none => result) acc
      = acc ++ concatAll (l.filterMap (specVisibleChar es)) := by
  induction l with
  | nil =>
    intro acc
    simp [concatAll, string_append_empty]
  | cons id rest ih =>
    intro acc
    rw [List.foldl_cons]
    rcases hv : getVal es id with _ | e
    · simp only [hv]
      rw [ih acc]
      have : specVisibleChar es id = none := by simp [specVisibleChar, hv]
      rw [List.filterMap_cons_none this]
    · by_cases hd : e.deleted
      · simp only [hv, hd, Bool.not_true, Bool.false_eq_true, if_false]
        rw [ih acc]
        have : specVisibleChar es id = none := by simp [specVisibleChar, hv, hd]
        rw [List.filterMap_cons_none this]
      · have hd' : e.deleted = false := by
          cases he : e.deleted
          · rfl
          · exact absurd he hd
        simp only [hv, hd', Bool.not_false, if_true]
        rw [ih (acc ++ e.char)]
        have : specVisibleChar es id = some e.char := by simp [specVisibleChar, hv, hd']
        rw [List.filterMap_cons_some this]
        show acc ++ e.char ++ concatAll _ = acc ++ (e.char ++ concatAll _)
        exact string_append_assoc acc e.char _

theorem filterMap_specVisibleChar_filter (es : List (String × TextRGAEntry)) (l : List String) :
    (l.filter (fun id => (getVal es id).isSome)).filterMap (specVisibleChar es)
      = l.filterMap (specVisibleChar es) := by
  induction l with
  | nil => rfl
  | cons id rest ih =>
    rcases hv : getVal es id with _ | e
    · have h1 : ((getVal es id).isSome : Bool) = false := by rw [hv]; rfl
      have h2 : specVisibleChar es id = none := by simp [specVisibleChar, hv]
      rw [List.filter_cons, if_neg (by simp [h1]), List.filterMap_cons_none h2, ih]
    · have h1 : ((getVal es id).isSome : Bool) = true := by rw [hv]; rfl
      rw [List.filter_cons, if_pos (by simp [h1]), List.filterMap_cons, ih]
      rw [List.filterMap_cons]

/-- C10: getText is total on states whose `order` lists ids that have no
entry in `entries` (merge produces such states when the argument's order
lists ids absent from both entries maps): dangling ids are silently skipped
— dropping them from `order` does not change the result — and the result is
the concatenation of the chars of the non-deleted ids that do have entries,
in order. -/
theorem getText_total_skips_dangling (x : TextRGA) :
    x.getText = x.specVisibleString ∧
    x.getText = TextRGA.getText
      ⟨x.localNodeId, x.localCounter, x.entries,
        x.order.filter (fun id => (getVal x.entries id).isSome)⟩ := by
  have h1 : x.getText = x.specVisibleString := by
    rw [TextRGA.getText, TextRGA.specVisibleString, getText_foldl_general]
    show "" ++ _ = _
    apply string_data_ext
    rfl
  refine ⟨h1, ?_⟩
  rw [h1]
  have h2 : TextRGA.getText
      ⟨x.localNodeId, x.localCounter, x.entries,
        x.order.filter (fun id => (getVal x.entries id).isSome)⟩
      = TextRGA.specVisibleString
      ⟨x.localNodeId, x.localCounter, x.entries,
        x.order.filter (fun id => (getVal x.entries id).isSome)⟩ := by
    rw [TextRGA.getText, TextRGA.specVisibleString, getText_foldl_general]
    apply string_data_ext
    rfl
  rw [h2, TextRGA.specVisibleString, TextRGA.specVisibleString]
  rw [filterMap_specVisibleChar_filter]
/-- C6: insertAt fails (the JS method throws a TypeError) exactly when the
char argument is not a one-character string; on failure the state is the
untouched receiver — localCounter, entries and order unchanged — and no
callback payload is produced, while a one-character string always yields a
success carrying the new id and the callback payload. -/
theorem insertAt_invalid_argument (x : TextRGA) (i : Int) (c : String) :
    ((∃ msg, x.insertAt i c = (x, Except.error msg)) ↔ c.length ≠ 1) ∧
    (c.length = 1 → ∃ y nid info, x.insertAt i c = (y, Except.ok (nid, info))) := by
  constructor
  · constructor
    · rintro ⟨msg, h⟩ hc
      simp [TextRGA.insertAt, hc] at h
    · intro hc
      refine ⟨"TextRGA.insertAt expects a single character string.", ?_⟩
      rw [TextRGA.insertAt, if_pos hc]
  · intro hc
    rw [TextRGA.insertAt, if_neg (by simp [hc])]
    exact ⟨_, _, _, rfl⟩

theorem insertAt_invalid_argument_witness :
    (∃ msg, TextRGA.insertAt ⟨"A", 0, [], []⟩ 0 "ab"
        = (⟨"A", 0, [], []⟩, Except.error msg)) ∧
    (∃ y nid info, TextRGA.insertAt ⟨"A", 0, [], []⟩ 0 "a"
        = (y, Except.ok (nid, info))) :=
  ⟨(insertAt_invalid_argument ⟨"A", 0, [], []⟩ 0 "ab").1.mpr (by decide),
   (insertAt_invalid_argument ⟨"A", 0, [], []⟩ 0 "a").2 (by decide)⟩

/-- C9: two registers with identical timestamps and counters 1 and 2 resolve
competition to the counter-2 value, whichever side initiates; and when the
timestamps differ by more than the staleness threshold the register with the
later timestamp wins regardless of the counter values, whichever side
initiates. -/
theorem lww_competition_tiebreaks {T : Type} :
    (∀ (v1 v2 : T) (ts : Int) (n1 n2 : String),
      (LWW.competition ⟨v1, ts, 1, n1⟩ ⟨v2, ts, 2, n2⟩).value = v2 ∧
      (LWW.competition ⟨v2, ts, 2, n2⟩ ⟨v1, ts, 1, n1⟩).value = v2) ∧
    (∀ a b : LWW T, a.timestamp + staleThresholdMs < b.timestamp →
      (LWW.competition a b).value = b.value ∧
      (LWW.competition b a).value = b.value) := by
  constructor
  · intro v1 v2 ts n1 n2
    constructor
    · simp [LWW.competition, staleThresholdMs, counterWindowMs]
    · simp [LWW.competition, staleThresholdMs, counterWindowMs]
  · intro a b h
    have hs : staleThresholdMs = 1800000 := by norm_num [staleThresholdMs]
    constructor
    · simp only [LWW.competition]
      rw [if_pos (Or.inl (by omega)), if_pos (by omega)]
    · simp only [LWW.competition]
      rw [if_pos (Or.inr (by omega)), if_neg (by omega)]

theorem lww_competition_tiebreaks_witness :
    ((LWW.competition ⟨(0 : Int), 5, 1, "a"⟩ ⟨7, 5, 2, "b"⟩).value = 7) ∧
    ((LWW.competition ⟨(0 : Int), 0, 9, "a"⟩ ⟨3, 2000000, 1, "b"⟩).value = 3 ∧
     (LWW.competition ⟨(3 : Int), 2000000, 1, "b"⟩ ⟨0, 0, 9, "a"⟩).value = 3) :=
  ⟨(lww_competition_tiebreaks.1 0 7 5 "a" "b").1,
   lww_competition_tiebreaks.2 ⟨0, 0, 9, "a"⟩ ⟨3, 2000000, 1, "b"⟩
     (by norm_num [staleThresholdMs])⟩
theorem getVal_foldl_maxStep (ys : List (String × Int)) :
    ∀ (xs : List (String × Int)) (k : String), keysNodup ys →
      getVal (ys.foldl maxStep xs) k =
        match getVal ys k with
        | some v => some (max ((getVal xs k).getD 0) v)
        | none => getVal xs k := by
  induction ys with
  | nil =>
    intro xs k _
    rfl
  | cons p rest ih =>
    intro xs k hn
    have hrest := (keysNodup_cons p rest hn).1
    have hout := (keysNodup_cons p rest hn).2
    rw [List.foldl_cons, ih (maxStep xs p) k hrest]
    by_cases hk : k = p.1
    · have hnone : getVal rest k = none := by
        rw [hk]
        exact (getVal_eq_none_iff rest p.1).2 hout
      rw [hnone, hk]
      have hstep : getVal (maxStep xs p) p.1 = some (max ((getVal xs p.1).getD 0) p.2) :=
        getVal_setKey_self xs p.1 _
      rw [hstep]
      simp [getVal]
    · have hpk : ¬ p.1 = k := fun hh => hk hh.symm
      have hstep : getVal (maxStep xs p) k = getVal xs k :=
        getVal_setKey_ne xs p.1 k _ hk
      rw [hstep]
      simp [getVal, hpk]

/-- C4 counterexample: a key held only by the receiver is not rewritten by
merge.  With increments {n: -1} on the receiver and an empty peer, the claim
demands increments[n] = max(-1 or 0, 0 or 0) = 0 after the merge, but the
code never touches keys absent from the peer's map, so -1 survives. -/
theorem pncounter_merge_claim_counterexample :
    getVal ((PNCounter.merge ⟨"a", [("n", -1)], []⟩ ⟨"b", [], []⟩).increments) "n"
      = some (-1) ∧
    getVal ((PNCounter.merge ⟨"a", [("n", -1)], []⟩ ⟨"b", [], []⟩).increments) "n"
      ≠ some (max ((getVal ([("n", -1)] : List (String × Int)) "n").getD 0)
          ((getVal ([] : List (String × Int)) "n").getD 0)) := by
  constructor
  · rfl
  · decide

/-- C4 amended: for every key present in the peer's increments map, merge
sets the receiver's register to max(self or 0, other's value); keys present
only in the receiver are left untouched (equal to the claimed maximum
whenever the stored tallies are non-negative, as in every state built by
increment and decrement), and keys absent from both sides stay absent — the
same for decrements. -/
theorem pncounter_merge_elementwise_max (x y : PNCounter)
    (hni : keysNodup y.increments) (hnd : keysNodup y.decrements) :
    (∀ k v, getVal y.increments k = some v →
      getVal (x.merge y).increments k
        = some (max ((getVal x.increments k).getD 0) v)) ∧
    (∀ k, getVal y.increments k = none →
      getVal (x.merge y).increments k = getVal x.increments k) ∧
    (∀ k v, getVal y.decrements k = some v →
      getVal (x.merge y).decrements k
        = some (max ((getVal x.decrements k).getD 0) v)) ∧
    (∀ k, getVal y.decrements k = none →
      getVal (x.merge y).decrements k = getVal x.decrements k) := by
  refine ⟨?_, ?_, ?_, ?_⟩
  · intro k v hv
    have h := getVal_foldl_maxStep y.increments x.increments k hni
    rw [hv] at h
    exact h
  · intro k hv
    have h := getVal_foldl_maxStep y.increments x.increments k hni
    rw [hv] at h
    exact h
  · intro k v hv
    have h := getVal_foldl_maxStep y.decrements x.decrements k hnd
    rw [hv] at h
    exact h
  · intro k hv
    have h := getVal_foldl_maxStep y.decrements x.decrements k hnd
    rw [hv] at h
    exact h

theorem pncounter_merge_elementwise_max_witness :
    getVal ((PNCounter.merge ⟨"a", [("n", 3)], []⟩ ⟨"b", [("n", 5)], [("m", 2)]⟩).increments) "n"
      = some (max ((getVal ([("n", 3)] : List (String × Int)) "n").getD 0) 5) ∧
    getVal ((PNCounter.merge ⟨"a", [("n", 3)], []⟩ ⟨"b", [("n", 5)], [("m", 2)]⟩).decrements) "q"
      = getVal ([] : List (String × Int)) "q" :=
  ⟨(pncounter_merge_elementwise_max ⟨"a", [("n", 3)], []⟩ ⟨"b", [("n", 5)], [("m", 2)]⟩
      (by decide) (by decide)).1 "n" 5 (by decide),
   (pncounter_merge_elementwise_max ⟨"a", [("n", 3)], []⟩ ⟨"b", [("n", 5)], [("m", 2)]⟩
      (by decide) (by decide)).2.2.2 "q" (by decide)⟩
theorem increment_goodMap (c : PNCounter) (n : String) (h1 : c.localNodeId = n)
    (h2 : goodMap n c.increments) : goodMap n c.increment.increments := by
  rcases h2 with h2 | ⟨v, hv, h2⟩
  · right
    refine ⟨1, by norm_num, ?_⟩
    simp [PNCounter.increment, h2, h1, getVal, setKey]
  · right
    refine ⟨v + 1, by omega, ?_⟩
    simp [PNCounter.increment, h2, h1, getVal, setKey]

theorem decrement_goodMap (c : PNCounter) (n : String) (h1 : c.localNodeId = n)
    (h2 : goodMap n c.decrements) : goodMap n c.decrement.decrements := by
  rcases h2 with h2 | ⟨v, hv, h2⟩
  · right
    refine ⟨1, by norm_num, ?_⟩
    simp [PNCounter.decrement, h2, h1, getVal, setKey]
  · right
    refine ⟨v + 1, by omega, ?_⟩
    simp [PNCounter.decrement, h2, h1, getVal, setKey]

theorem runOps_shape (n : String) (ops : List CounterOp) :
    (runOps n ops).localNodeId = n ∧
    goodMap n (runOps n ops).increments ∧ goodMap n (runOps n ops).decrements := by
  suffices h : ∀ c : PNCounter, c.localNodeId = n → goodMap n c.increments →
      goodMap n c.decrements →
      (ops.foldl applyCounterOp c).localNodeId = n ∧
      goodMap n (ops.foldl applyCounterOp c).increments ∧
      goodMap n (ops.foldl applyCounterOp c).decrements by
    exact h ⟨n, [], []⟩ rfl (Or.inl rfl) (Or.inl rfl)
  induction ops with
  | nil => intro c h1 h2 h3; exact ⟨h1, h2, h3⟩
  | cons op rest ih =>
    intro c h1 h2 h3
    rw [List.foldl_cons]
    cases op with
    | inc =>
      refine ih c.increment h1 (increment_goodMap c n h1 h2) ?_
      simpa [PNCounter.increment] using h3
    | dec =>
      refine ih c.decrement h1 ?_ (decrement_goodMap c n h1 h3)
      simpa [PNCounter.decrement] using h2

theorem maxStep_good_comm (na nb : String) (m1 m2 : List (String × Int))
    (h1 : goodMap na m1) (h2 : goodMap nb m2) :
    sumVals (m2.foldl maxStep m1) = sumVals (m1.foldl maxStep m2) := by
  rcases h1 with h1 | ⟨v1, hv1, h1⟩ <;> rcases h2 with h2 | ⟨v2, hv2, h2⟩ <;>
    subst h1 <;> subst h2
  · rfl
  · simp [maxStep, setKey, getVal, sumVals]
    omega
  · simp [maxStep, setKey, getVal, sumVals]
    omega
  · by_cases hab : na = nb
    · subst hab
      simp [maxStep, setKey, getVal, sumVals]
      omega
    · have hba : ¬ nb = na := fun hh => hab hh.symm
      simp [maxStep, setKey, getVal, sumVals, hab, hba]
      omega

theorem maxStep_good_idem (na nb : String) (m1 m2 : List (String × Int))
    (h1 : goodMap na m1) (h2 : goodMap nb m2) :
    m2.foldl maxStep (m2.foldl maxStep m1) = m2.foldl maxStep m1 := by
  rcases h1 with h1 | ⟨v1, hv1, h1⟩ <;> rcases h2 with h2 | ⟨v2, hv2, h2⟩ <;>
    subst h1 <;> subst h2
  · rfl
  · simp [maxStep, setKey, getVal, max_assoc]
  · rfl
  · by_cases hab : na = nb
    · subst hab
      simp [maxStep, setKey, getVal, max_assoc]
    · have hba : ¬ nb = na := fun hh => hab hh.symm
      simp [maxStep, setKey, getVal, hab, hba, max_assoc]

/-- C5: for counters built from arbitrary increment and decrement histories
on fresh replicas, merging in either direction yields the same getCount, and
merging the same peer state a second time leaves the counter's state — and
hence getCount — unchanged. -/
theorem pncounter_history_comm_idem (na nb : String) (ops1 ops2 : List CounterOp) :
    ((runOps na ops1).merge (runOps nb ops2)).getCount
      = ((runOps nb ops2).merge (runOps na ops1)).getCount ∧
    ((runOps na ops1).merge (runOps nb ops2)).merge (runOps nb ops2)
      = (runOps na ops1).merge (runOps nb ops2) := by
  obtain ⟨hA1, hA2, hA3⟩ := runOps_shape na ops1
  obtain ⟨hB1, hB2, hB3⟩ := runOps_shape nb ops2
  constructor
  · simp only [PNCounter.merge, PNCounter.getCount]
    rw [maxStep_good_comm na nb _ _ hA2 hB2, maxStep_good_comm na nb _ _ hA3 hB3]
  · simp only [PNCounter.merge]
    rw [maxStep_good_idem na nb _ _ hA2 hB2, maxStep_good_idem na nb _ _ hA3 hB3]
theorem TextRGA.fields_ext (a b : TextRGA) (h1 : a.localNodeId = b.localNodeId)
    (h2 : a.localCounter = b.localCounter) (h3 : a.entries = b.entries)
    (h4 : a.order = b.order) : a = b := by
  cases a
  cases b
  cases h1
  cases h2
  cases h3
  cases h4
  rfl

/-- C1 counterexample: a state reachable by two insertAt calls on a fresh
replica for which merging a structural copy of itself changes both the order
array and the visible text (merge re-sorts the positionally spliced order). -/
theorem rga_merge_self_counterexample :
    (twoInserts.merge twoInserts).order ≠ twoInserts.order ∧
    (twoInserts.merge twoInserts).getText ≠ twoInserts.getText := by decide

/-- C1 amended: merging a structural copy never changes the entries map and
rebuilds order as the ascending lexicographic sort of the state's ids, so
the merge is a complete no-op — same entries, same order, same getText —
precisely on states whose order already is that sort (in particular every
state just produced by a merge); a state built by raw insertAt splices can
instead have its order re-sorted. -/
theorem rga_merge_self (x : TextRGA) (hn : keysNodup x.entries) :
    (x.merge x).entries = x.entries ∧
    (x.merge x).order = x.idSortOf ∧
    (x.order = x.idSortOf → x.merge x = x) := by
  have he : (x.merge x).entries = x.entries := by
    show x.entries.foldl mergeEntriesStep x.entries = x.entries
    apply foldl_mergeEntriesStep_id
    intro p hp
    exact getVal_of_mem_nodup x.entries p.1 p.2 hn hp
  have ho : (x.merge x).order = x.idSortOf := by
    show sortIds ((x.order ++ x.order ++ keysOf (x.mergedEntries x)).dedup)
      = sortIds ((x.order ++ keysOf x.entries).dedup)
    have hme : x.mergedEntries x = x.entries := he
    rw [hme]
    apply sortIds_congr_of_mem _ _ (List.nodup_dedup _) (List.nodup_dedup _)
    intro a
    simp only [List.mem_dedup, List.mem_append]
    tauto
  refine ⟨he, ho, ?_⟩
  intro hsort
  exact TextRGA.fields_ext _ _ rfl (max_self _) he (ho.trans hsort.symm)

theorem rga_merge_self_witness :
    TextRGA.merge ⟨"A", 2, [("A:1", ⟨"a", false⟩), ("A:2", ⟨"b", false⟩)], ["A:1", "A:2"]⟩
        ⟨"A", 2, [("A:1", ⟨"a", false⟩), ("A:2", ⟨"b", false⟩)], ["A:1", "A:2"]⟩
      = ⟨"A", 2, [("A:1", ⟨"a", false⟩), ("A:2", ⟨"b", false⟩)], ["A:1", "A:2"]⟩ :=
  (rga_merge_self ⟨"A", 2, [("A:1", ⟨"a", false⟩), ("A:2", ⟨"b", false⟩)], ["A:1", "A:2"]⟩
    (by decide)).2.2 (by decide)

/-- C2 counterexample: the order invariant does not hold for every reachable
state: after two insertAt calls on a fresh replica, order is [A:2, A:1],
which is not the ascending lexicographic sort of the state's ids. -/
theorem rga_order_not_always_sorted :
    twoInserts.order = ["A:2", "A:1"] ∧
    twoInserts.order ≠ sortIds twoInserts.order ∧
    twoInserts.order ≠ twoInserts.idSortOf := by decide
/-- C2 amended: the deterministic-order invariant is a property of merge
outputs rather than of every reachable state: the order array any merge
produces is sorted ascending by the id strings and duplicate-free, and it is
derivable purely from the set of ids involved — two merges whose inputs
cover the same id set yield identical order arrays, independently of the
insertion histories — while insertAt splices positionally and can leave
order unsorted (see the counterexample). -/
theorem rga_merge_order_deterministic (x y x2 y2 : TextRGA) :
    List.Sorted strOrd (x.merge y).order ∧
    (x.merge y).order.Nodup ∧
    ((∀ id, (id ∈ x.order ∨ id ∈ y.order ∨ id ∈ keysOf (x.mergedEntries y)) ↔
        (id ∈ x2.order ∨ id ∈ y2.order ∨ id ∈ keysOf (x2.mergedEntries y2))) →
      (x.merge y).order = (x2.merge y2).order) := by
  refine ⟨sortIds_sorted _, sortIds_nodup _ (List.nodup_dedup _), ?_⟩
  intro h
  apply sortIds_congr_of_mem _ _ (List.nodup_dedup _) (List.nodup_dedup _)
  intro a
  simp only [List.mem_dedup, List.mem_append]
  have := h a
  tauto

theorem rga_merge_order_deterministic_witness :
    (TextRGA.merge ⟨"A", 1, [("A:1", ⟨"a", false⟩)], ["A:1"]⟩ ⟨"B", 0, [], []⟩).order
      = (TextRGA.merge ⟨"C", 0, [], ["A:1"]⟩ ⟨"D", 0, [("A:1", ⟨"a", true⟩)], []⟩).order :=
  (rga_merge_order_deterministic
      ⟨"A", 1, [("A:1", ⟨"a", false⟩)], ["A:1"]⟩ ⟨"B", 0, [], []⟩
      ⟨"C", 0, [], ["A:1"]⟩ ⟨"D", 0, [("A:1", ⟨"a", true⟩)], []⟩).2.2 (by
    intro id
    have h1 : keysOf (TextRGA.mergedEntries ⟨"A", 1, [("A:1", ⟨"a", false⟩)], ["A:1"]⟩
        ⟨"B", 0, [], []⟩) = ["A:1"] := by decide
    have h2 : keysOf (TextRGA.mergedEntries ⟨"C", 0, [], ["A:1"]⟩
        ⟨"D", 0, [("A:1", ⟨"a", true⟩)], []⟩) = ["A:1"] := by decide
    simp [h1, h2])
theorem combineE_comm (a b : Option TextRGAEntry)
    (h : ∀ ea eb, a = some ea → b = some eb → ea.char = eb.char) :
    combineE a b = combineE b a := by
  cases a with
  | none =>
    cases b with
    | none => rfl
    | some eb => rfl
  | some ea =>
    cases b with
    | none => rfl
    | some eb =>
      have hc := h ea eb rfl rfl
      show some (⟨ea.char, ea.deleted || eb.deleted⟩ : TextRGAEntry)
        = some ⟨eb.char, eb.deleted || ea.deleted⟩
      rw [hc, Bool.or_comm]

theorem combineE_assoc (a b c : Option TextRGAEntry) :
    combineE (combineE a b) c = combineE a (combineE b c) := by
  cases a <;> cases b <;> cases c <;> simp [combineE, Bool.or_assoc]

theorem merge_entries_getVal (x y : TextRGA) (hy : keysNodup y.entries) (k : String) :
    getVal (x.merge y).entries k = combineE (getVal x.entries k) (getVal y.entries k) :=
  getVal_foldl_mergeEntriesStep y.entries x.entries k hy

theorem merge_entries_keysNodup (x y : TextRGA) (hx : keysNodup x.entries) :
    keysNodup (x.merge y).entries :=
  keysNodup_foldl_mergeEntriesStep y.entries x.entries hx

theorem merge_entries_mem_keys (x y : TextRGA) (hy : keysNodup y.entries) (k : String) :
    k ∈ keysOf (x.merge y).entries ↔ k ∈ keysOf x.entries ∨ k ∈ keysOf y.entries :=
  mem_keysOf_foldl_mergeEntriesStep y.entries x.entries k hy

theorem merge_order_mem (x y : TextRGA) (hy : keysNodup y.entries) (a : String) :
    a ∈ (x.merge y).order ↔
      a ∈ x.order ∨ a ∈ y.order ∨ a ∈ keysOf x.entries ∨ a ∈ keysOf y.entries := by
  show a ∈ sortIds ((x.order ++ y.order ++ keysOf (x.mergedEntries y)).dedup) ↔ _
  rw [sortIds_mem, List.mem_dedup, List.mem_append, List.mem_append]
  have := merge_entries_mem_keys x y hy a
  rw [show keysOf (x.mergedEntries y) = keysOf (x.merge y).entries from rfl, this]
  tauto

theorem charCompatible_getVal (x y : TextRGA) (h : charCompatible x y) (k : String)
    (a b : TextRGAEntry) (ha : getVal x.entries k = some a) (hb : getVal y.entries k = some b) :
    a.char = b.char :=
  h (k, a) (mem_of_getVal x.entries k a ha) (k, b) (mem_of_getVal y.entries k b hb) rfl

/-- C3 counterexample: the same id stored with different chars on two sides
(each state individually constructible through the public constructor) makes
the final entries map depend on the grouping: merging X into Y before adding
Z keeps Y's char, while merging Y into X first keeps X's char. -/
theorem rga_merge_comm_counterexample :
    getVal (((TextRGA.merge ⟨"a", 0, [("k", ⟨"x", false⟩)], ["k"]⟩
        ⟨"b", 0, [("k", ⟨"y", false⟩)], ["k"]⟩).merge ⟨"c", 0, [], []⟩).entries) "k"
      = some ⟨"x", false⟩ ∧
    getVal (((TextRGA.merge ⟨"b", 0, [("k", ⟨"y", false⟩)], ["k"]⟩
        ⟨"a", 0, [("k", ⟨"x", false⟩)], ["k"]⟩).merge ⟨"c", 0, [], []⟩).entries) "k"
      = some ⟨"y", false⟩ := by decide

/-- C3 amended: for states with duplicate-free entry keys (as JS objects
guarantee) that agree on the char stored under every shared id — true of any
replicas allocating under distinct node ids — merge is commutative and
associative on the merged data: the final entries maps agree pointwise and
the final order arrays are identical, for every grouping and order. -/
theorem rga_merge_comm_assoc (x y z : TextRGA)
    (hx : keysNodup x.entries) (hy : keysNodup y.entries) (hz : keysNodup z.entries)
    (hxy : charCompatible x y) :
    entriesEqv (x.merge y) (y.merge x) ∧
    (x.merge y).order = (y.merge x).order ∧
    entriesEqv ((x.merge y).merge z) (x.merge (y.merge z)) ∧
    ((x.merge y).merge z).order = (x.merge (y.merge z)).order := by
  have hxyn : keysNodup (x.merge y).entries := merge_entries_keysNodup x y hx
  have hyzn : keysNodup (y.merge z).entries := merge_entries_keysNodup y z hy
  refine ⟨?_, ?_, ?_, ?_⟩
  · intro k
    rw [merge_entries_getVal x y hy k, merge_entries_getVal y x hx k]
    exact combineE_comm _ _ (fun ea eb hea heb => charCompatible_getVal x y hxy k ea eb hea heb)
  · apply sortIds_congr_of_mem _ _ (List.nodup_dedup _) (List.nodup_dedup _)
    intro a
    have h1 : a ∈ ((x.order ++ y.order ++ keysOf (x.mergedEntries y)).dedup)
        ↔ a ∈ (x.merge y).order := (sortIds_mem _ a).symm
    have h2 : a ∈ ((y.order ++ x.order ++ keysOf (y.mergedEntries x)).dedup)
        ↔ a ∈ (y.merge x).order := (sortIds_mem _ a).symm
    rw [h1, h2, merge_order_mem x y hy a, merge_order_mem y x hx a]
    tauto
  · intro k
    rw [merge_entries_getVal (x.merge y) z hz k, merge_entries_getVal x y hy k,
      merge_entries_getVal x (y.merge z) hyzn k, merge_entries_getVal y z hz k]
    exact combineE_assoc _ _ _
  · have nd1 : (((x.merge y).merge z).order).Nodup := sortIds_nodup _ (List.nodup_dedup _)
    have nd2 : ((x.merge (y.merge z)).order).Nodup := sortIds_nodup _ (List.nodup_dedup _)
    have s1 : List.Sorted strOrd (((x.merge y).merge z).order) := sortIds_sorted _
    have s2 : List.Sorted strOrd ((x.merge (y.merge z)).order) := sortIds_sorted _
    have hmem : ∀ a, a ∈ ((x.merge y).merge z).order ↔ a ∈ (x.merge (y.merge z)).order := by
      intro a
      rw [merge_order_mem (x.merge y) z hz a, merge_order_mem x (y.merge z) hyzn a,
        merge_order_mem x y hy a, merge_order_mem y z hz a,
        merge_entries_mem_keys x y hy a, merge_entries_mem_keys y z hz a]
      tauto
    exact List.eq_of_perm_of_sorted ((List.perm_ext_iff_of_nodup nd1 nd2).mpr hmem) s1 s2

theorem rga_merge_comm_assoc_witness :
    (TextRGA.merge ⟨"a", 1, [("a:1", ⟨"x", false⟩)], ["a:1"]⟩
        ⟨"b", 1, [("b:1", ⟨"y", false⟩)], ["b:1"]⟩).order
      = (TextRGA.merge ⟨"b", 1, [("b:1", ⟨"y", false⟩)], ["b:1"]⟩
          ⟨"a", 1, [("a:1", ⟨"x", false⟩)], ["a:1"]⟩).order :=
  (rga_merge_comm_assoc
      ⟨"a", 1, [("a:1", ⟨"x", false⟩)], ["a:1"]⟩
      ⟨"b", 1, [("b:1", ⟨"y", false⟩)], ["b:1"]⟩
      ⟨"c", 1, [("a:1", ⟨"x", true⟩)], ["a:1"]⟩
      (by decide) (by decide) (by decide) (by decide)).2.1
theorem insertLoop_past (es : List (String × TextRGAEntry)) (newId : String) (k : Nat) :
    ∀ (l : List String) (pos : Nat), k < pos → insertLoop es newId k l pos = l := by
  intro l
  induction l with
  | nil => intro pos _; rfl
  | cons id rest ih =>
    intro pos hpos
    cases hkeep : keep es id with
    | true =>
      have hne : pos ≠ k := by omega
      simp only [insertLoop, hkeep, if_true, if_neg hne, List.nil_append]
      rw [ih (pos + 1) (by omega)]
    | false =>
      simp only [insertLoop, hkeep]
      rw [if_neg (by simp), ih pos hpos]

theorem insertLoop_no_trigger (es : List (String × TextRGAEntry)) (newId : String) (k : Nat) :
    ∀ (l : List String) (pos : Nat), pos + (l.filter (keep es)).length ≤ k →
      insertLoop es newId k l pos = l := by
  intro l
  induction l with
  | nil => intro pos _; rfl
  | cons id rest ih =>
    intro pos hle
    cases hkeep : keep es id with
    | true =>
      have hlen : ((id :: rest).filter (keep es)).length
          = (rest.filter (keep es)).length + 1 := by
        rw [List.filter_cons, if_pos (by simp [hkeep])]
        rfl
      have hne : pos ≠ k := by omega
      simp only [insertLoop, hkeep, if_true, if_neg hne, List.nil_append]
      rw [ih (pos + 1) (by omega)]
    | false =>
      have hlen : ((id :: rest).filter (keep es)).length
          = (rest.filter (keep es)).length := by
        rw [List.filter_cons, if_neg (by simp [hkeep])]
      simp only [insertLoop, hkeep]
      rw [if_neg (by simp), ih pos (by omega)]

theorem insertLoop_trigger (es : List (String × TextRGAEntry)) (newId : String) (k : Nat) :
    ∀ (l : List String) (pos : Nat), pos ≤ k → k < pos + (l.filter (keep es)).length →
      ∃ pre post, l = pre ++ post ∧
        insertLoop es newId k l pos = pre ++ newId :: post ∧
        (pre.filter (keep es)).length = k - pos ∧
        post.head? = (l.filter (keep es)).get? (k - pos) := by
  intro l
  induction l with
  | nil =>
    intro pos h1 h2
    simp at h2
    omega
  | cons id rest ih =>
    intro pos h1 h2
    cases hkeep : keep es id with
    | true =>
      have hfc : (id :: rest).filter (keep es) = id :: rest.filter (keep es) := by
        rw [List.filter_cons, if_pos (by simp [hkeep])]
      by_cases hpos : pos = k
      · refine ⟨[], id :: rest, rfl, ?_, ?_, ?_⟩
        · simp only [insertLoop, hkeep, if_true, if_pos hpos]
          rw [insertLoop_past es newId k rest (pos + 1) (by omega)]
          rfl
        · simp
          omega
        · rw [hfc]
          have : k - pos = 0 := by omega
          rw [this]
          rfl
      · have h2' : k < (pos + 1) + (rest.filter (keep es)).length := by
          rw [hfc] at h2
          simp at h2
          omega
        obtain ⟨pre, post, hsplit, hloop, hlen, hhead⟩ := ih (pos + 1) (by omega) h2'
        refine ⟨id :: pre, post, by rw [List.cons_append, ← hsplit], ?_, ?_, ?_⟩
        · simp only [insertLoop, hkeep, if_true, if_neg hpos, List.nil_append]
          rw [hloop]
          rfl
        · rw [List.filter_cons, if_pos (by simp [hkeep])]
          simp only [List.length_cons]
          omega
        · rw [hfc]
          have hk : k - pos = (k - (pos + 1)) + 1 := by omega
          rw [hk, List.get?_cons_succ]
          exact hhead
    | false =>
      have hfc : (id :: rest).filter (keep es) = rest.filter (keep es) := by
        rw [List.filter_cons, if_neg (by simp [hkeep])]
      have h2' : k < pos + (rest.filter (keep es)).length := by
        rw [hfc] at h2
        exact h2
      obtain ⟨pre, post, hsplit, hloop, hlen, hhead⟩ := ih pos h1 h2'
      refine ⟨id :: pre, post, by rw [List.cons_append, ← hsplit], ?_, ?_, ?_⟩
      · simp only [insertLoop, hkeep]
        rw [if_neg (by simp), hloop, List.cons_append]
      · rw [List.filter_cons, if_neg (by simp [hkeep])]
        exact hlen
      · rw [hfc]
        exact hhead

theorem visibleIds_eq_specVisibleIds (x : TextRGA) (hwf : x.wellFormed) :
    x.order.filter (keep x.entries) = x.specVisibleIds := by
  unfold TextRGA.specVisibleIds
  apply List.filter_congr
  intro id hid
  have hs := hwf id hid
  rcases hv : getVal x.entries id with _ | e
  · rw [hv] at hs
    simp at hs
  · cases hd : e.deleted <;> simp [keep, specVisibleChar, hv, hd]
/-- C8 counterexample: on a state (constructible through the public
constructor) whose order holds a dangling id ahead of a live one, the
materialized visible sequence has length 1, yet deleteAt(1) — an index
outside that visible range — tombstones the live entry and fires the
callback, because the source's filter also counts ids with no entry. -/
theorem deleteAt_out_of_range_counterexample :
    (TextRGA.specVisibleIds ⟨"N", 0, [("A:1", ⟨"a", false⟩)], ["x", "A:1"]⟩).length = 1 ∧
    (TextRGA.deleteAt ⟨"N", 0, [("A:1", ⟨"a", false⟩)], ["x", "A:1"]⟩ 1).1
      ≠ ⟨"N", 0, [("A:1", ⟨"a", false⟩)], ["x", "A:1"]⟩ ∧
    (TextRGA.deleteAt ⟨"N", 0, [("A:1", ⟨"a", false⟩)], ["x", "A:1"]⟩ 1).2
      = some ⟨1, "A:1"⟩ := by decide

/-- C8 amended: on well-formed states — every id of order has an entry, the
invariant every locally edited or well-formedly merged state satisfies —
deleteAt with an index outside the visible range returns the state unchanged
and fires no callback, and with an in-range index sets the deleted flag of
the entry at that visible position to true, removing the id from neither
entries nor order, and fires the callback with that id. -/
theorem deleteAt_tombstones (x : TextRGA) (i : Int) (hwf : x.wellFormed) :
    ((i < 0 ∨ (x.specVisibleIds.length : Int) ≤ i) → x.deleteAt i = (x, none)) ∧
    (0 ≤ i → i < (x.specVisibleIds.length : Int) →
      ∃ id e, x.specVisibleIds.get? i.toNat = some id ∧
        getVal x.entries id = some e ∧
        x.deleteAt i = ({ x with entries := setKey x.entries id ⟨e.char, true⟩ },
          some ⟨i.toNat, id⟩) ∧
        (x.deleteAt i).1.order = x.order ∧
        keysOf (x.deleteAt i).1.entries = keysOf x.entries ∧
        getVal (x.deleteAt i).1.entries id = some ⟨e.char, true⟩) := by
  have hvis : x.order.filter (keep x.entries) = x.specVisibleIds :=
    visibleIds_eq_specVisibleIds x hwf
  constructor
  · intro hout
    rw [TextRGA.deleteAt]
    rw [hvis, if_pos hout]
  · intro h0 hlen
    have hlt : i.toNat < x.specVisibleIds.length := by omega
    have hid : x.specVisibleIds.get? i.toNat = some (x.specVisibleIds.get ⟨i.toNat, hlt⟩) :=
      List.get?_eq_get hlt
    set id := x.specVisibleIds.get ⟨i.toNat, hlt⟩ with hiddef
    have hidmem : id ∈ x.specVisibleIds := List.get_mem _ _ _
    have hidord : id ∈ x.order := by
      have := hidmem
      rw [TextRGA.specVisibleIds] at this
      exact (List.mem_filter.mp this).1
    have hsome : (getVal x.entries id).isSome := hwf id hidord
    rcases he : getVal x.entries id with _ | e
    · rw [he] at hsome
      simp at hsome
    refine ⟨id, e, hid, he, ?_⟩
    have hcond : ¬ (i < 0 ∨ ((x.specVisibleIds.length : Int)) ≤ i) := by omega
    have heq : x.deleteAt i
        = ({ x with entries := setKey x.entries id ⟨e.char, true⟩ }, some ⟨i.toNat, id⟩) := by
      rw [TextRGA.deleteAt]
      rw [hvis, if_neg hcond, hid]
      show (match getVal x.entries id with
        | none => ((x, none) : TextRGA × Option TextRGADeleteInfo)
        | some e =>
          ({ x with entries := setKey x.entries id (⟨e.char, true⟩ : TextRGAEntry) },
            some (⟨i.toNat, id⟩ : TextRGADeleteInfo)))
        = ({ x with entries := setKey x.entries id (⟨e.char, true⟩ : TextRGAEntry) },
            some (⟨i.toNat, id⟩ : TextRGADeleteInfo))
      rw [he]
    have hmemk : id ∈ keysOf x.entries := by
      rw [← getVal_isSome_iff, he]
      rfl
    refine ⟨heq, ?_, ?_, ?_⟩
    · rw [heq]
    · rw [heq]
      exact keysOf_setKey_mem x.entries id _ hmemk
    · rw [heq]
      exact getVal_setKey_self x.entries id _

theorem deleteAt_tombstones_witness :
    TextRGA.deleteAt ⟨"A", 1, [("A:1", ⟨"a", false⟩)], ["A:1"]⟩ 5
      = (⟨"A", 1, [("A:1", ⟨"a", false⟩)], ["A:1"]⟩, none) ∧
    TextRGA.deleteAt ⟨"A", 1, [("A:1", ⟨"a", false⟩)], ["A:1"]⟩ 0
      = (⟨"A", 1, [("A:1", ⟨"a", true⟩)], ["A:1"]⟩, some ⟨0, "A:1"⟩) := by
  constructor
  · exact (deleteAt_tombstones ⟨"A", 1, [("A:1", ⟨"a", false⟩)], ["A:1"]⟩ 5
      (by decide)).1 (by decide)
  · obtain ⟨id, e, hid, he, heq, _, _, _⟩ :=
      (deleteAt_tombstones ⟨"A", 1, [("A:1", ⟨"a", false⟩)], ["A:1"]⟩ 0
        (by decide)).2 (by decide) (by decide)
    have hid' : id = "A:1" := by
      have h2 : (TextRGA.specVisibleIds ⟨"A", 1, [("A:1", ⟨"a", false⟩)], ["A:1"]⟩).get?
          (Int.toNat 0) = some "A:1" := by decide
      rw [h2] at hid
      exact (Option.some.inj hid).symm
    subst hid'
    have he' : e = ⟨"a", false⟩ := by
      have h3 : getVal ([("A:1", (⟨"a", false⟩ : TextRGAEntry))]) "A:1"
          = some ⟨"a", false⟩ := by decide
      rw [h3] at he
      exact (Option.some.inj he).symm
    subst he'
    rw [heq]
    rfl
/-- C7 counterexample: on a state (constructible through the public
constructor) whose localCounter lags behind an id already recorded under the
same node id, the freshly allocated id collides with the existing one; at a
clamped index equal to the visible length the append is then suppressed by
the duplicate guard, so the id is not appended at the end of order (the
entry map is silently overwritten instead). -/
theorem insertAt_append_counterexample :
    TextRGA.clampedIndex ⟨"A", 0, [("A:1", ⟨"a", false⟩)], ["A:1"]⟩ 1 = 1 ∧
    (TextRGA.specVisibleIds ⟨"A", 0, [("A:1", ⟨"a", false⟩)], ["A:1"]⟩).length = 1 ∧
    (TextRGA.insertAtState ⟨"A", 0, [("A:1", ⟨"a", false⟩)], ["A:1"]⟩ 1 "b").order
      = ["A:1"] ∧
    (TextRGA.insertAtState ⟨"A", 0, [("A:1", ⟨"a", false⟩)], ["A:1"]⟩ 1 "b").order
      ≠ ["A:1"] ++ [TextRGA.freshId ⟨"A", 0, [("A:1", ⟨"a", false⟩)], ["A:1"]⟩] := by
  decide

/-- C7 amended: for a well-formed state (every order id has an entry) whose
next allocation is fresh (the id nodeId:(localCounter+1) does not occur in
order — guaranteed whenever localCounter is at least every counter already
used under this node id), a successful insertAt clamps the index into
[0, visibleLength]; when the clamped index addresses a visible slot the
fresh id is spliced into order immediately before the id occupying that
visible slot, preserving the relative order of all pre-existing ids, and
when the clamped index equals the visible length the fresh id is appended
at the end of order. -/
theorem insertAt_splices (x : TextRGA) (i : Int) (c : String)
    (hc : c.length = 1) (hwf : x.wellFormed) (hfresh : x.freshId ∉ x.order) :
    x.insertAt i c
      = (x.insertAtState i c, Except.ok (x.freshId, ⟨x.clampedIndex i, x.freshId, c⟩)) ∧
    ((i ≤ 0 → x.clampedIndex i = 0) ∧
     (0 ≤ i → i ≤ (x.specVisibleIds.length : Int) → ((x.clampedIndex i : Int) = i)) ∧
     ((x.specVisibleIds.length : Int) ≤ i → x.clampedIndex i = x.specVisibleIds.length)) ∧
    (x.clampedIndex i < x.specVisibleIds.length →
      ∃ pre post, x.order = pre ++ post ∧
        (x.insertAtState i c).order = pre ++ x.freshId :: post ∧
        (pre.filter (keep x.entries)).length = x.clampedIndex i ∧
        post.head? = x.specVisibleIds.get? (x.clampedIndex i)) ∧
    (x.clampedIndex i = x.specVisibleIds.length →
      (x.insertAtState i c).order = x.order ++ [x.freshId]) := by
  have hvis : x.order.filter (keep x.entries) = x.specVisibleIds :=
    visibleIds_eq_specVisibleIds x hwf
  have hlen : (x.order.filter (keep x.entries)).length = x.specVisibleIds.length := by
    rw [hvis]
  have hcl : ∀ j : Int, x.clampedIndex j
      = (max 0 (min j ((x.order.filter (keep x.entries)).length : Int))).toNat :=
    fun j => rfl
  have horder : (x.insertAtState i c).order
      = (if x.clampedIndex i = (x.order.filter (keep x.entries)).length ∧
            x.freshId ∉ insertLoop x.entries x.freshId (x.clampedIndex i) x.order 0
         then insertLoop x.entries x.freshId (x.clampedIndex i) x.order 0 ++ [x.freshId]
         else insertLoop x.entries x.freshId (x.clampedIndex i) x.order 0) := by
    rw [TextRGA.insertAtState, TextRGA.insertAt, if_neg (by simp [hc])]
    rfl
  refine ⟨?_, ⟨?_, ?_, ?_⟩, ?_, ?_⟩
  · rw [TextRGA.insertAtState, TextRGA.insertAt, if_neg (by simp [hc])]
    rfl
  · intro h
    rw [hcl]
    omega
  · intro h1 h2
    rw [hcl]
    omega
  · intro h
    rw [hcl]
    omega
  · intro hklt
    have hklt' : x.clampedIndex i < 0 + (x.order.filter (keep x.entries)).length := by
      omega
    obtain ⟨pre, post, hsplit, hloop, hlenp, hhead⟩ :=
      insertLoop_trigger x.entries x.freshId (x.clampedIndex i) x.order 0
        (Nat.zero_le _) hklt'
    refine ⟨pre, post, hsplit, ?_, ?_, ?_⟩
    · rw [horder, if_neg ?_, hloop]
      intro hand
      omega
    · rw [hlenp]
      omega
    · rw [hhead, hvis, Nat.sub_zero]
  · intro hkeq
    have hnt : insertLoop x.entries x.freshId (x.clampedIndex i) x.order 0 = x.order :=
      insertLoop_no_trigger x.entries x.freshId (x.clampedIndex i) x.order 0 (by omega)
    rw [horder, hnt, if_pos ⟨by omega, hfresh⟩]
theorem insertAt_splices_witness :
    TextRGA.clampedIndex ⟨"A", 1, [("A:1", ⟨"a", false⟩)], ["A:1"]⟩ (-7) = 0 ∧
    (TextRGA.insertAtState ⟨"A", 1, [("A:1", ⟨"a", false⟩)], ["A:1"]⟩ 5 "b").order
      = TextRGA.order ⟨"A", 1, [("A:1", ⟨"a", false⟩)], ["A:1"]⟩
        ++ [TextRGA.freshId ⟨"A", 1, [("A:1", ⟨"a", false⟩)], ["A:1"]⟩] :=
  ⟨(insertAt_splices ⟨"A", 1, [("A:1", ⟨"a", false⟩)], ["A:1"]⟩ (-7) "b"
      (by decide) (by decide) (by decide)).2.1.1 (by norm_num),
   (insertAt_splices ⟨"A", 1, [("A:1", ⟨"a", false⟩)], ["A:1"]⟩ 5 "b"
      (by decide) (by decide) (by decide)).2.2.2 (by decide)⟩
